import Mathlib

/-!
Verification of ANTsPyNet's `brain_age` (utilities/brain_age.py) and
`sysu_media_wmh_segmentation` (utilities/white_matter_hyperintensity_segmentation.py)
against their natural-language specification.

The two functions are straight-line pipelines gluing together external
image-processing and inference libraries.  The embedding below translates
the repository's own logic — input validation, intensity-normalization
arithmetic, slice-batch construction, the pad/crop helper, weight-file path
resolution, ensemble averaging, the median aggregation, and the
translation-transform round trip — into executable Lean definitions.
Voxel intensities are modelled as rationals; arrays as shape lists plus
index functions; the external model's per-slice predictions as opaque
rational-valued data the pipeline aggregates.
-/

namespace ANTsPyNet

/-! ## Input validation (brain_age.py lines 66-67,
    white_matter_hyperintensity_segmentation.py lines 83-84)

`brain_age` checks `t1.dimension != 3`; `sysu_media_wmh_segmentation`
checks only `flair.dimension != 3` — the `t1` and `brain_mask` arguments
are never dimension-checked, which the signature below records by taking
(and ignoring) their dimensions. -/

def brain_age_validate (t1_dimension : Nat) : Except String Unit :=
  if t1_dimension ≠ 3 then Except.error "Image dimension must be 3." else Except.ok ()

def sysu_media_wmh_validate (flair_dimension : Nat) (_t1_dimension : Option Nat)
    (_brain_mask_dimension : Option Nat) : Except String Unit :=
  if flair_dimension ≠ 3 then Except.error "Image dimension must be 3." else Except.ok ()

/-! ## Ensemble size and ensemble averaging
    (white_matter_hyperintensity_segmentation.py lines 170-172, 227-231)

Prediction arrays are modelled as functions from a flat element index to a
rational.  The accumulation loop `prediction += ...; prediction /= m` is
embedded as a fold over the Python `range(1, m, 1)`. -/

def number_of_models (use_ensemble : Bool) : Nat :=
  if use_ensemble then 3 else 1

def sysu_ensemble_prediction (preds : List (Nat → ℚ)) (m : Nat) : Nat → ℚ :=
  fun j =>
    ((List.range' 1 (m - 1)).foldl
        (fun acc i => acc + (preds.getD i (fun _ => 0)) j)
        ((preds.getD 0 (fun _ => 0)) j)) / (m : ℚ)

/-! ## Weight-file names and cache resolution
    (brain_age.py lines 96-104,
     white_matter_hyperintensity_segmentation.py lines 176-197) -/

def sysu_weights_base_name (channels i : Nat) : String :=
  if channels = 1 then "sysuMediaWmhFlairOnlyModel" ++ toString i
  else "sysuMediaWmhFlairT1Model" ++ toString i

def sysu_loaded_models (use_ensemble : Bool) (channels : Nat) : List String :=
  (List.range (number_of_models use_ensemble)).map (fun i => sysu_weights_base_name channels i)

/-- brain_age.py line 98: `output_directory + "/DeepBrainNetModel.h5"`. -/
def brain_age_weights_path (output_directory : String) : String :=
  output_directory ++ "/DeepBrainNetModel.h5"

/-- white_matter_hyperintensity_segmentation.py lines 179/188:
`output_directory + "sysuMediaWmh...Model" + str(i) + ".h5"` — plain string
concatenation, no path separator inserted. -/
def sysu_weights_path (output_directory : String) (channels i : Nat) : String :=
  output_directory ++ sysu_weights_base_name channels i ++ ".h5"

/-- Where a weight file ends up: reused from the cache path, downloaded to
the cache path, or downloaded to a temporary location. -/
inductive WeightsLocation where
  | cached (path : String)
  | downloadedTo (path : String)
  | downloadedToTemp
  deriving DecidableEq

/-- The shared shape of both functions' weight-resolution logic:
with an output directory, build the candidate path; reuse it when it
exists, otherwise download to it; with no output directory, download
to a temporary file (`get_pretrained_network` with no target). -/
def resolve_weights (fileExists : String → Bool) (output_directory : Option String)
    (mkPath : String → String) : WeightsLocation :=
  match output_directory with
  | some dir =>
      if fileExists (mkPath dir) then WeightsLocation.cached (mkPath dir)
      else WeightsLocation.downloadedTo (mkPath dir)
  | none => WeightsLocation.downloadedToTemp

/-! ## Theorems for claims C1, C3, C7 -/

/-- C1 (counterexample): the claim asserts `sysu_media_wmh_segmentation`
raises a ValueError whenever one of its image inputs is not 3-dimensional.
With a 3-D flair and a 2-dimensional t1, validation succeeds: the code
checks only the flair argument. -/
theorem c1_only_flair_checked_counterexample :
    (2 : Nat) ≠ 3 ∧
      sysu_media_wmh_validate 3 (some 2) (some 3) = Except.ok () := by
  exact ⟨by decide, rfl⟩

/-- C1 (amended): `brain_age` raises "Image dimension must be 3." exactly
when its t1 argument is not 3-dimensional, and `sysu_media_wmh_segmentation`
raises it exactly when its flair argument is not 3-dimensional — regardless
of the dimensions of t1 and brain_mask, which are never validated; in all
other cases the validation succeeds and each check is the only input
validation performed. -/
theorem c1_dimension_check (d f : Nat) (t m : Option Nat) :
    (brain_age_validate d = Except.ok () ↔ d = 3) ∧
    (brain_age_validate d = Except.error "Image dimension must be 3." ↔ d ≠ 3) ∧
    (sysu_media_wmh_validate f t m = Except.ok () ↔ f = 3) ∧
    (sysu_media_wmh_validate f t m = Except.error "Image dimension must be 3." ↔ f ≠ 3) := by
  unfold brain_age_validate sysu_media_wmh_validate
  by_cases hd : d = 3 <;> by_cases hf : f = 3 <;> simp [hd, hf]

/-- C3: with `use_ensemble` true exactly 3 models are loaded and the
prediction is the elementwise mean of the 3 per-model prediction arrays;
with `use_ensemble` false exactly 1 model is loaded and the prediction is
that model's output divided by 1, i.e. unchanged. -/
theorem c3_ensemble_mean :
    number_of_models true = 3 ∧
    number_of_models false = 1 ∧
    (∀ ch : Nat, (sysu_loaded_models true ch).length = 3 ∧
      (sysu_loaded_models false ch).length = 1) ∧
    (∀ (p0 p1 p2 : Nat → ℚ) (j : Nat),
      sysu_ensemble_prediction [p0, p1, p2] (number_of_models true) j
        = (p0 j + p1 j + p2 j) / 3) ∧
    (∀ (p0 : Nat → ℚ) (j : Nat),
      sysu_ensemble_prediction [p0] (number_of_models false) j = p0 j) := by
  refine ⟨rfl, rfl, fun ch => ⟨by simp [sysu_loaded_models, number_of_models],
      by simp [sysu_loaded_models, number_of_models]⟩,
    fun p0 p1 p2 j => ?_, fun p0 j => ?_⟩
  · show ((List.range' 1 2).foldl _ _) / (3 : ℚ) = _
    simp [List.range', List.foldl]
  · show ((List.range' 1 0).foldl _ _) / (1 : ℚ) = _
    simp

/-- C7 (counterexample): the claim asserts both functions place the cached
weight file at the directory path joined to the weight file name.  For
`sysu_media_wmh_segmentation` with output directory "weights", the computed
path is "weightssysuMediaWmhFlairOnlyModel0.h5" — plain concatenation with
no separator — which differs from the joined path
"weights/sysuMediaWmhFlairOnlyModel0.h5", and a missing file is downloaded
to that concatenated path. -/
theorem c7_no_separator_counterexample :
    sysu_weights_path "weights" 1 0 = "weightssysuMediaWmhFlairOnlyModel0.h5" ∧
    sysu_weights_path "weights" 1 0 ≠ "weights" ++ "/" ++ "sysuMediaWmhFlairOnlyModel0.h5" ∧
    resolve_weights (fun _ => false) (some "weights") (fun d => sysu_weights_path d 1 0)
      = WeightsLocation.downloadedTo "weightssysuMediaWmhFlairOnlyModel0.h5" := by
  refine ⟨rfl, by decide, rfl⟩

/-- C7 (amended): `brain_age` builds its cache path as the directory joined
to "DeepBrainNetModel.h5" with a "/" separator, while
`sysu_media_wmh_segmentation` concatenates the directory string directly
with the weight file name (so the file sits inside the directory only when
the given string ends in a separator).  For any non-None output directory
both reuse the file at the computed path when it exists and download to
that path otherwise, and with output directory None the weights go to a
temporary location. -/
theorem c7_weight_cache (fileExists : String → Bool) (dir : String)
    (mkPath : String → String) (ch i : Nat) :
    brain_age_weights_path dir = dir ++ "/" ++ "DeepBrainNetModel.h5" ∧
    sysu_weights_path dir ch i = dir ++ (sysu_weights_base_name ch i ++ ".h5") ∧
    (fileExists (mkPath dir) = true →
      resolve_weights fileExists (some dir) mkPath = WeightsLocation.cached (mkPath dir)) ∧
    (fileExists (mkPath dir) = false →
      resolve_weights fileExists (some dir) mkPath = WeightsLocation.downloadedTo (mkPath dir)) ∧
    resolve_weights fileExists none mkPath = WeightsLocation.downloadedToTemp := by
  refine ⟨by simp [brain_age_weights_path, String.append_assoc], by
      simp [sysu_weights_path, String.append_assoc], fun h => ?_, fun h => ?_, rfl⟩
  · simp [resolve_weights, h]
  · simp [resolve_weights, h]

/-! ## Array/image model for slice extraction and pad/crop

An image (or numpy array) is a shape list together with a total
intensity function on index vectors; only indices below the shape are
meaningful. -/

structure AntsImage where
  shape : List Nat
  val : List Nat → ℚ

/-- ants.slice_image(image, axis=2, idx): the 2-D axial slice of a 3-D
image, `slice[x, y] = image[x, y, idx]`. -/
def slice_image (image : AntsImage) (idx : Nat) : AntsImage :=
  ⟨image.shape.take 2, fun p => image.val (p ++ [idx])⟩

/-- np `.min()` of a list of integers (every use is on a nonempty list). -/
def listMinInt (l : List Int) : Int := l.foldl min (l.headD 0)

/-- ants.pad_image(image, shape): zero-pad the image centrally up to
`shape`. -/
def pad_image (image : AntsImage) (shape : List Nat) : AntsImage :=
  ⟨shape, fun p =>
    let lower := List.zipWith (fun (t s : Nat) => (t - s) / 2) shape image.shape
    if ∀ d ∈ List.range image.shape.length,
        lower.getD d 0 ≤ p.getD d 0 ∧ p.getD d 0 < lower.getD d 0 + image.shape.getD d 0 then
      image.val (List.zipWith (fun (i lo : Nat) => i - lo) p lower)
    else 0⟩

/-- Modelled from the spec: `crop_image_center` is imported from the
package's own utilities but its file is not among the given sources; the
spec describes the step as center-cropping to the target size.  A centered
crop is well-formed only when no target dimension exceeds the image (the
utility rejects such a crop), so an invalid crop is modelled as `none`. -/
def crop_image_center (image : AntsImage) (size : List Nat) : Option AntsImage :=
  if size.length = image.shape.length ∧
      ∀ d ∈ List.range size.length, size.getD d 0 ≤ image.shape.getD d 0 then
    some ⟨size, fun p =>
      image.val (List.zipWith (fun (i lo : Nat) => i + lo) p
        (List.zipWith (fun (s t : Nat) => (s - t) / 2) image.shape size))⟩
  else none

/-- `image_size - np.array(size)` as signed integers
(white_matter_hyperintensity_segmentation.py line 73). -/
def size_delta (image : AntsImage) (size : List Nat) : List Int :=
  List.zipWith (fun (a b : Nat) => (a : Int) - (b : Int)) image.shape size

/-- `abs(delta.min())` (line 76). -/
def pad_amount (image : AntsImage) (size : List Nat) : Nat :=
  (listMinInt (size_delta image size)).natAbs

/-- white_matter_hyperintensity_segmentation.py lines 71-81: if any
dimension is smaller than the target, pad every dimension by the absolute
value of the most negative size difference, then center-crop to the
target. -/
def pad_or_crop_image_to_size (image : AntsImage) (size : List Nat) : Option AntsImage :=
  let padded :=
    if (size_delta image size).any (fun d => decide (d < 0)) then
      pad_image image (image.shape.map (fun s => s + pad_amount image size))
    else image
  crop_image_center padded size

/-! ### Fold-min facts used to bound the padding amount -/

lemma foldl_min_le_init (l : List Int) (a : Int) : l.foldl min a ≤ a := by
  induction l generalizing a with
  | nil => exact le_refl _
  | cons x xs ih => exact le_trans (ih (min a x)) (min_le_left _ _)

lemma foldl_min_le_mem (l : List Int) (a : Int) : ∀ x ∈ l, l.foldl min a ≤ x := by
  induction l generalizing a with
  | nil => intro x hx; cases hx
  | cons y ys ih =>
      intro x hx
      rcases List.mem_cons.mp hx with h | h
      · subst h
        exact le_trans (foldl_min_le_init ys (min a x)) (min_le_right _ _)
      · exact ih (min a y) x h

lemma listMinInt_le (l : List Int) : ∀ x ∈ l, listMinInt l ≤ x :=
  foldl_min_le_mem l (l.headD 0)

lemma size_delta_length (image : AntsImage) (size : List Nat)
    (h : image.shape.length = size.length) :
    (size_delta image size).length = size.length := by
  simp [size_delta, h]

lemma size_delta_getD (image : AntsImage) (size : List Nat)
    (h : image.shape.length = size.length) (d : Nat) (hd : d < size.length) :
    (size_delta image size).getD d 0
      = (image.shape.getD d 0 : Int) - (size.getD d 0 : Int) := by
  have hlen : (size_delta image size).length = size.length := size_delta_length image size h
  rw [List.getD_eq_getElem _ _ (by omega)]
  simp only [size_delta]
  rw [List.getElem_zipWith]
  rw [List.getD_eq_getElem _ _ (by omega), List.getD_eq_getElem _ _ (by omega)]

/-- Core fact behind C8: when some dimension is smaller than the target,
adding `pad_amount` — the absolute value of the most negative entry of the
size difference — makes every dimension at least the target. -/
lemma pad_amount_dominates (image : AntsImage) (size : List Nat)
    (h : image.shape.length = size.length)
    (hneg : (size_delta image size).any (fun d => decide (d < 0)) = true) :
    ∀ d ∈ List.range size.length,
      size.getD d 0 ≤ image.shape.getD d 0 + pad_amount image size := by
  intro d hd
  have hd' : d < size.length := List.mem_range.mp hd
  obtain ⟨x, hx, hxneg⟩ := List.any_eq_true.mp hneg
  have hxneg' : x < 0 := of_decide_eq_true hxneg
  have hmin_neg : listMinInt (size_delta image size) < 0 :=
    lt_of_le_of_lt (listMinInt_le _ x hx) hxneg'
  have habs : (pad_amount image size : Int) = - listMinInt (size_delta image size) := by
    rw [pad_amount, Int.ofNat_natAbs_of_nonpos (le_of_lt hmin_neg)]
  have hdlt : d < (size_delta image size).length := by
    rw [size_delta_length image size h]; exact hd'
  have hmem : (size_delta image size).getD d 0 ∈ size_delta image size := by
    rw [List.getD_eq_getElem _ _ hdlt]
    apply List.getElem_mem
  have hle : listMinInt (size_delta image size) ≤ (size_delta image size).getD d 0 :=
    listMinInt_le _ _ hmem
  rw [size_delta_getD image size h d hd'] at hle
  have : (size.getD d 0 : Int) ≤ (image.shape.getD d 0 : Int) + (pad_amount image size : Int) := by
    rw [habs]; omega
  exact_mod_cast this

lemma padded_shape_getD (image : AntsImage) (size : List Nat)
    (h : image.shape.length = size.length) (p : Nat) (d : Nat) (hd : d < size.length) :
    ((image.shape.map (fun s => s + p)).getD d 0) = image.shape.getD d 0 + p := by
  rw [List.getD_eq_getElem _ _ (by simpa using by omega : d < (image.shape.map (fun s => s + p)).length)]
  rw [List.getElem_map, List.getD_eq_getElem _ _ (by omega)]

/-- Shared success lemma: with matching dimensionalities,
`pad_or_crop_image_to_size` always succeeds and its result has exactly the
requested shape. -/
lemma pad_or_crop_succeeds (image : AntsImage) (size : List Nat)
    (h : image.shape.length = size.length) :
    ∃ out, pad_or_crop_image_to_size image size = some out ∧ out.shape = size := by
  unfold pad_or_crop_image_to_size
  by_cases hneg : (size_delta image size).any (fun d => decide (d < 0)) = true
  · rw [if_pos hneg]
    have hcond : size.length = (pad_image image
        (image.shape.map (fun s => s + pad_amount image size))).shape.length ∧
        ∀ d ∈ List.range size.length,
          size.getD d 0 ≤ (pad_image image
            (image.shape.map (fun s => s + pad_amount image size))).shape.getD d 0 := by
      constructor
      · simp [pad_image, h]
      · intro d hd
        have hd' : d < size.length := List.mem_range.mp hd
        have := pad_amount_dominates image size h hneg d hd
        show size.getD d 0 ≤ (image.shape.map (fun s => s + pad_amount image size)).getD d 0
        rw [padded_shape_getD image size h _ d hd']
        exact this
    rw [crop_image_center, if_pos hcond]
    exact ⟨_, rfl, rfl⟩
  · rw [if_neg hneg]
    have hall : ∀ x ∈ size_delta image size, ¬ (x < 0) := by
      intro x hx hlt
      exact hneg (List.any_eq_true.mpr ⟨x, hx, decide_eq_true hlt⟩)
    have hcond : size.length = image.shape.length ∧
        ∀ d ∈ List.range size.length, size.getD d 0 ≤ image.shape.getD d 0 := by
      refine ⟨h.symm, fun d hd => ?_⟩
      have hd' : d < size.length := List.mem_range.mp hd
      have hdlt : d < (size_delta image size).length := by
        rw [size_delta_length image size h]; exact hd'
      have hmem : (size_delta image size).getD d 0 ∈ size_delta image size := by
        rw [List.getD_eq_getElem _ _ hdlt]
        apply List.getElem_mem
      have := hall _ hmem
      rw [size_delta_getD image size h d hd'] at this
      omega
    rw [crop_image_center, if_pos hcond]
    exact ⟨_, rfl, rfl⟩

/-- C8: for every image and target size of the same dimensionality,
`pad_or_crop_image_to_size` returns an image whose shape is exactly the
requested size; when some dimension is smaller than the target, every
dimension is first padded by the absolute value of the most negative size
difference, which makes every dimension at least the target, and the
center crop then succeeds. -/
theorem c8_pad_or_crop_shape (image : AntsImage) (size : List Nat)
    (h : image.shape.length = size.length) :
    (∃ out, pad_or_crop_image_to_size image size = some out ∧ out.shape = size) ∧
    ((size_delta image size).any (fun d => decide (d < 0)) = true →
      ∀ d ∈ List.range size.length,
        size.getD d 0 ≤ image.shape.getD d 0 + pad_amount image size) :=
  ⟨pad_or_crop_succeeds image size h, pad_amount_dominates image size h⟩

/-- C8 witness: a concrete 3x5 image cropped/padded to 4x4. -/
theorem c8_pad_or_crop_shape_witness :
    (∃ out, pad_or_crop_image_to_size ⟨[3, 5], fun _ => 0⟩ [4, 4] = some out ∧
      out.shape = [4, 4]) ∧
    ((size_delta ⟨[3, 5], fun _ => 0⟩ [4, 4]).any (fun d => decide (d < 0)) = true →
      ∀ d ∈ List.range ([4, 4] : List Nat).length,
        ([4, 4] : List Nat).getD d 0
          ≤ (⟨[3, 5], fun _ => 0⟩ : AntsImage).shape.getD d 0
            + pad_amount ⟨[3, 5], fun _ => 0⟩ [4, 4]) :=
  c8_pad_or_crop_shape ⟨[3, 5], fun _ => 0⟩ [4, 4] (by decide)

/-! ## Slice-batch construction -/

/-- A 4-D numpy batch array: its shape and its entries, indexed
`val slice row column channel`. -/
structure BatchArray where
  shape : List Nat
  val : Nat → Nat → Nat → Nat → ℚ

/-- brain_age.py line 111: `which_slices = list(range(45, 125))`. -/
def which_slices : List Nat := (List.range 80).map (fun j => 45 + j)

/-- brain_age.py lines 113-122: a batch with one row per chosen slice and
three channels holding the previous, current and next axial slice. -/
def brain_age_batch (vol : AntsImage) : BatchArray :=
  ⟨[which_slices.length, vol.shape.getD 0 0, vol.shape.getD 1 0, 3],
   fun i x y ch =>
     if ch = 0 then (slice_image vol (which_slices.getD i 0 - 1)).val [x, y]
     else if ch = 1 then (slice_image vol (which_slices.getD i 0)).val [x, y]
     else if ch = 2 then (slice_image vol (which_slices.getD i 0 + 1)).val [x, y]
     else 0⟩

/-- Every axial slice index read by the brain_age batch loop:
`which_slices[i] - 1`, `which_slices[i]`, `which_slices[i] + 1`. -/
def accessed_slice_indices : List Nat :=
  which_slices.foldr (fun s acc => (s - 1) :: s :: (s + 1) :: acc) []

/-- white_matter_hyperintensity_segmentation.py lines 103-115:
one channel, or two when a t1 image is supplied. -/
def number_of_channels (t1 : Option AntsImage) : Nat :=
  match t1 with
  | some _ => 2
  | none => 1

/-- The pad/crop result as an image (`pad_or_crop_succeeds` shows the
`Option` is always `some` when the dimensionalities match). -/
def padOrCropD (image : AntsImage) (size : List Nat) : AntsImage :=
  (pad_or_crop_image_to_size image size).getD ⟨size, fun _ => 0⟩

/-- white_matter_hyperintensity_segmentation.py lines 205-216: one row per
axial slice of the warped flair; channel 0 the flair slice padded/cropped
to 200x200, channel 1 (when present) the t1 slice likewise. -/
def sysu_batch (flair_warped : AntsImage) (t1_warped : Option AntsImage) : BatchArray :=
  ⟨[flair_warped.shape.getD 2 0, 200, 200, number_of_channels t1_warped],
   fun i x y ch =>
     if ch = 0 then (padOrCropD (slice_image flair_warped i) [200, 200]).val [x, y]
     else if ch = 1 then
       match t1_warped with
       | some t1w => (padOrCropD (slice_image t1w i) [200, 200]).val [x, y]
       | none => 0
     else 0⟩

lemma which_slices_getD (i : Nat) (h : i < 80) : which_slices.getD i 0 = 45 + i := by
  rw [which_slices, List.getD_eq_getElem _ _ (by simpa using h), List.getElem_map,
    List.getElem_range]

lemma slice_image_shape_length (image : AntsImage) (idx : Nat) :
    (slice_image image idx).shape.length = min 2 image.shape.length := by
  simp [slice_image]

/-- C5: the brain_age inference batch has shape (80, d0, d1, 3) where d0,
d1 are the first two dimensions of the preprocessed volume; row i is built
from axial slice 45+i, with channels 0, 1, 2 holding slices 44+i, 45+i and
46+i. -/
theorem c5_brain_age_batch (vol : AntsImage) (i x y : Nat) (h : i < 80) :
    (brain_age_batch vol).shape = [80, vol.shape.getD 0 0, vol.shape.getD 1 0, 3] ∧
    which_slices.getD i 0 = 45 + i ∧
    (brain_age_batch vol).val i x y 0 = vol.val [x, y, 44 + i] ∧
    (brain_age_batch vol).val i x y 1 = vol.val [x, y, 45 + i] ∧
    (brain_age_batch vol).val i x y 2 = vol.val [x, y, 46 + i] := by
  have hw : which_slices.getD i 0 = 45 + i := which_slices_getD i h
  have hw2 : which_slices[i]? = some (45 + i) := by
    rw [List.getElem?_eq_getElem (by simpa using h)]
    simp [which_slices]
  have h44 : 45 + i - 1 = 44 + i := by omega
  have h46 : 45 + i + 1 = 46 + i := by omega
  refine ⟨by simp [brain_age_batch, which_slices], hw, ?_, ?_, ?_⟩ <;>
    simp [brain_age_batch, slice_image, hw, hw2, h44, h46]

/-- C5 witness: a 182x218x182 volume at slice row 0. -/
theorem c5_brain_age_batch_witness :
    (brain_age_batch ⟨[182, 218, 182], fun _ => 0⟩).shape
      = [80, (⟨[182, 218, 182], fun _ => 0⟩ : AntsImage).shape.getD 0 0,
          (⟨[182, 218, 182], fun _ => 0⟩ : AntsImage).shape.getD 1 0, 3] ∧
    which_slices.getD 0 0 = 45 + 0 ∧
    (brain_age_batch ⟨[182, 218, 182], fun _ => 0⟩).val 0 1 2 0
      = (⟨[182, 218, 182], fun _ => 0⟩ : AntsImage).val [1, 2, 44 + 0] ∧
    (brain_age_batch ⟨[182, 218, 182], fun _ => 0⟩).val 0 1 2 1
      = (⟨[182, 218, 182], fun _ => 0⟩ : AntsImage).val [1, 2, 45 + 0] ∧
    (brain_age_batch ⟨[182, 218, 182], fun _ => 0⟩).val 0 1 2 2
      = (⟨[182, 218, 182], fun _ => 0⟩ : AntsImage).val [1, 2, 46 + 0] :=
  c5_brain_age_batch ⟨[182, 218, 182], fun _ => 0⟩ 0 1 2 (by decide)

set_option maxRecDepth 8000 in
/-- C9: the batch loop reads exactly the axial slice indices 44 through
125, so every read is in range precisely when the volume has at least 126
axial slices; with fewer slices some read (index 125) is out of range. -/
theorem c9_slice_range (n : Nat) :
    ((∀ j ∈ accessed_slice_indices, j < n) ↔ 126 ≤ n) ∧
    (∀ j ∈ accessed_slice_indices, 44 ≤ j ∧ j ≤ 125) ∧
    (∀ k ∈ List.range' 44 82, k ∈ accessed_slice_indices) := by
  have hub : ∀ j ∈ accessed_slice_indices, j ≤ 125 := by decide
  have hlb : ∀ j ∈ accessed_slice_indices, 44 ≤ j := by decide
  have hmem : (125 : Nat) ∈ accessed_slice_indices := by decide
  refine ⟨⟨fun hall => ?_, fun hle j hj => ?_⟩,
    fun j hj => ⟨hlb j hj, hub j hj⟩, by decide⟩
  · have := hall 125 hmem; omega
  · have := hub j hj; omega

/-- C6: the segmentation inference batch has shape (n, 200, 200, c) with n
the number of axial slices of the warped flair and c = 2 exactly when a t1
image is supplied (else 1); channel 0 of row i is axial slice i of the
warped flair padded/cropped to 200x200 (and that pad/crop always
succeeds), and with a t1 image channel 1 is the corresponding warped t1
slice likewise. -/
theorem c6_sysu_batch (flair_warped : AntsImage) (t1_warped : Option AntsImage)
    (hf : flair_warped.shape.length = 3) :
    (sysu_batch flair_warped t1_warped).shape
      = [flair_warped.shape.getD 2 0, 200, 200, number_of_channels t1_warped] ∧
    number_of_channels none = 1 ∧
    (∀ t1w, number_of_channels (some t1w) = 2) ∧
    (∀ i, (pad_or_crop_image_to_size (slice_image flair_warped i) [200, 200]).isSome) ∧
    (∀ i x y, (sysu_batch flair_warped t1_warped).val i x y 0
      = (padOrCropD (slice_image flair_warped i) [200, 200]).val [x, y]) ∧
    (∀ t1w, t1_warped = some t1w → t1w.shape.length = 3 →
      (∀ i, (pad_or_crop_image_to_size (slice_image t1w i) [200, 200]).isSome) ∧
      (∀ i x y, (sysu_batch flair_warped t1_warped).val i x y 1
        = (padOrCropD (slice_image t1w i) [200, 200]).val [x, y])) := by
  refine ⟨rfl, rfl, fun t1w => rfl, fun i => ?_, fun i x y => by simp [sysu_batch],
    fun t1w ht hlen => ⟨fun i => ?_, fun i x y => ?_⟩⟩
  · obtain ⟨out, hout, -⟩ := pad_or_crop_succeeds (slice_image flair_warped i) [200, 200]
      (by simp [slice_image_shape_length, hf])
    simp [hout]
  · obtain ⟨out, hout, -⟩ := pad_or_crop_succeeds (slice_image t1w i) [200, 200]
      (by simp [slice_image_shape_length, hlen])
    simp [hout]
  · subst ht
    simp [sysu_batch]

/-- C6 witness: the warped flair in the 200x200x200 reference frame with
no t1 image. -/
theorem c6_sysu_batch_witness :
    (sysu_batch ⟨[200, 200, 200], fun _ => 0⟩ none).shape
      = [(⟨[200, 200, 200], fun _ => 0⟩ : AntsImage).shape.getD 2 0, 200, 200,
          number_of_channels none] ∧
    number_of_channels none = 1 ∧
    (∀ t1w, number_of_channels (some t1w) = 2) ∧
    (∀ i, (pad_or_crop_image_to_size
      (slice_image ⟨[200, 200, 200], fun _ => 0⟩ i) [200, 200]).isSome) ∧
    (∀ i x y, (sysu_batch ⟨[200, 200, 200], fun _ => 0⟩ none).val i x y 0
      = (padOrCropD (slice_image ⟨[200, 200, 200], fun _ => 0⟩ i) [200, 200]).val [x, y]) ∧
    (∀ t1w, none = some t1w → t1w.shape.length = 3 →
      (∀ i, (pad_or_crop_image_to_size (slice_image t1w i) [200, 200]).isSome) ∧
      (∀ i x y, (sysu_batch ⟨[200, 200, 200], fun _ => 0⟩ none).val i x y 1
        = (padOrCropD (slice_image t1w i) [200, 200]).val [x, y])) :=
  c6_sysu_batch ⟨[200, 200, 200], fun _ => 0⟩ none (by decide)

/-! ## Median aggregation (brain_age.py lines 128-134) -/

def insertSorted (x : ℚ) : List ℚ → List ℚ
  | [] => [x]
  | y :: ys => if x ≤ y then x :: y :: ys else y :: insertSorted x ys

def isort : List ℚ → List ℚ
  | [] => []
  | x :: xs => insertSorted x (isort xs)

/-- CPython's statistics.median: sort the data, take the middle element
for odd length and the mean of the two middle elements for even length. -/
def pythonMedian (l : List ℚ) : ℚ :=
  if l.length % 2 = 1 then (isort l).getD (l.length / 2) 0
  else ((isort l).getD (l.length / 2 - 1) 0 + (isort l).getD (l.length / 2) 0) / 2

/-- The dictionary returned by brain_age (lines 132-134). -/
structure BrainAgeResult where
  predicted_age : ℚ
  brain_age_per_slice : List ℚ

/-- brain_age.py lines 128-134: the model's per-slice predictions are
aggregated with statistics.median into predicted_age, and both are
returned together. -/
def brain_age_postprocess (preds : List ℚ) : BrainAgeResult :=
  ⟨pythonMedian preds, preds⟩

lemma insertSorted_perm (x : ℚ) (l : List ℚ) : (insertSorted x l).Perm (x :: l) := by
  induction l with
  | nil => simp [insertSorted]
  | cons y ys ih =>
      by_cases h : x ≤ y
      · simp [insertSorted, h]
      · simp only [insertSorted, if_neg h]
        exact (ih.cons y).trans (List.Perm.swap x y ys)

lemma isort_perm (l : List ℚ) : (isort l).Perm l := by
  induction l with
  | nil => simp [isort]
  | cons x xs ih => exact (insertSorted_perm x (isort xs)).trans (ih.cons x)

lemma insertSorted_sorted (x : ℚ) (l : List ℚ) (h : l.Sorted (· ≤ ·)) :
    (insertSorted x l).Sorted (· ≤ ·) := by
  induction l with
  | nil => simp [insertSorted]
  | cons y ys ih =>
      rw [List.sorted_cons] at h
      obtain ⟨hy, hys⟩ := h
      by_cases hxy : x ≤ y
      · simp only [insertSorted, if_pos hxy]
        rw [List.sorted_cons]
        refine ⟨fun b hb => ?_, List.sorted_cons.mpr ⟨hy, hys⟩⟩
        rcases List.mem_cons.mp hb with rfl | hb2
        · exact hxy
        · exact le_trans hxy (hy b hb2)
      · simp only [insertSorted, if_neg hxy]
        rw [List.sorted_cons]
        refine ⟨fun b hb => ?_, ih hys⟩
        rcases List.mem_cons.mp ((insertSorted_perm x ys).mem_iff.mp hb) with rfl | hb2
        · exact le_of_lt (not_le.mp hxy)
        · exact hy b hb2

lemma isort_sorted (l : List ℚ) : (isort l).Sorted (· ≤ ·) := by
  induction l with
  | nil => simp [isort]
  | cons x xs ih => exact insertSorted_sorted x (isort xs) ih

/-- C2: over the 80-slice batch, the returned predicted_age is the median
of the per-slice prediction array — the mean of the 40th and 41st entries
of a sorted rearrangement — and both the scalar and the raw per-slice
array are returned together. -/
theorem c2_median_of_slices (preds : List ℚ) (h : preds.length = 80) :
    (brain_age_postprocess preds).brain_age_per_slice = preds ∧
    (brain_age_postprocess preds).predicted_age = pythonMedian preds ∧
    (isort preds).Perm preds ∧
    (isort preds).Sorted (· ≤ ·) ∧
    (brain_age_postprocess preds).predicted_age
      = ((isort preds).getD 39 0 + (isort preds).getD 40 0) / 2 := by
  refine ⟨rfl, rfl, isort_perm preds, isort_sorted preds, ?_⟩
  show pythonMedian preds = _
  rw [pythonMedian, h]
  norm_num

/-- C2 witness: the per-slice predictions 0, 1, ..., 79. -/
theorem c2_median_of_slices_witness :
    (brain_age_postprocess ((List.range 80).map (fun k => (k : ℚ)))).brain_age_per_slice
      = (List.range 80).map (fun k => (k : ℚ)) ∧
    (brain_age_postprocess ((List.range 80).map (fun k => (k : ℚ)))).predicted_age
      = pythonMedian ((List.range 80).map (fun k => (k : ℚ))) ∧
    (isort ((List.range 80).map (fun k => (k : ℚ)))).Perm
      ((List.range 80).map (fun k => (k : ℚ))) ∧
    (isort ((List.range 80).map (fun k => (k : ℚ)))).Sorted (· ≤ ·) ∧
    (brain_age_postprocess ((List.range 80).map (fun k => (k : ℚ)))).predicted_age
      = ((isort ((List.range 80).map (fun k => (k : ℚ)))).getD 39 0
          + (isort ((List.range 80).map (fun k => (k : ℚ)))).getD 40 0) / 2 :=
  c2_median_of_slices ((List.range 80).map (fun k => (k : ℚ))) (by decide)

/-! ## Unguarded intensity normalizations
    (brain_age.py line 88,
     white_matter_hyperintensity_segmentation.py lines 155-162) -/

def image_min : List ℚ → ℚ
  | [] => 0
  | x :: xs => xs.foldl min x

def image_max : List ℚ → ℚ
  | [] => 0
  | x :: xs => xs.foldl max x

/-- The divisor of brain_age's rescaling `(t1 - min) / (max - min)`. -/
def brain_age_norm_denominator (vals : List ℚ) : ℚ :=
  image_max vals - image_min vals

/-- brain_age.py line 88, applied with no guard on the divisor. -/
def brain_age_normalize (vals : List ℚ) : List ℚ :=
  vals.map (fun v => (v - image_min vals) / brain_age_norm_denominator vals)

def listMean (vals : List ℚ) : ℚ := vals.sum / (vals.length : ℚ)

/-- The square of np `.std()` over the in-mask intensities: the population
variance.  The segmentation divides by the standard deviation, which is
zero exactly when this variance is zero. -/
def listVariance (vals : List ℚ) : ℚ :=
  ((vals.map (fun v => (v - listMean vals) ^ 2)).sum) / (vals.length : ℚ)

/-- white_matter_hyperintensity_segmentation.py line 157, applied with no
guard on the divisor: the rationals stand for `(v - mean) / std` with
`std^2` the variance above. -/
def IsConstant (vals : List ℚ) : Prop := ∀ x ∈ vals, ∀ y ∈ vals, x = y

lemma foldl_min_le_init_q (l : List ℚ) (a : ℚ) : l.foldl min a ≤ a := by
  induction l generalizing a with
  | nil => exact le_refl _
  | cons x xs ih => exact le_trans (ih (min a x)) (min_le_left _ _)

lemma foldl_min_le_mem_q (l : List ℚ) (a : ℚ) : ∀ x ∈ l, l.foldl min a ≤ x := by
  induction l generalizing a with
  | nil => intro x hx; cases hx
  | cons y ys ih =>
      intro x hx
      rcases List.mem_cons.mp hx with h | h
      · subst h
        exact le_trans (foldl_min_le_init_q ys (min a x)) (min_le_right _ _)
      · exact ih (min a y) x h

lemma foldl_min_mem_q (l : List ℚ) (a : ℚ) : l.foldl min a = a ∨ l.foldl min a ∈ l := by
  induction l generalizing a with
  | nil => exact Or.inl rfl
  | cons x xs ih =>
      rcases ih (min a x) with h | h
      · rcases min_choice a x with hc | hc
        · exact Or.inl (by rw [List.foldl_cons, h, hc])
        · exact Or.inr (by rw [List.foldl_cons, h, hc]; exact List.mem_cons_self x xs)
      · exact Or.inr (List.mem_cons_of_mem x h)

lemma le_foldl_max_init_q (l : List ℚ) (a : ℚ) : a ≤ l.foldl max a := by
  induction l generalizing a with
  | nil => exact le_refl _
  | cons x xs ih => exact le_trans (le_max_left _ _) (ih (max a x))

lemma le_foldl_max_mem_q (l : List ℚ) (a : ℚ) : ∀ x ∈ l, x ≤ l.foldl max a := by
  induction l generalizing a with
  | nil => intro x hx; cases hx
  | cons y ys ih =>
      intro x hx
      rcases List.mem_cons.mp hx with h | h
      · subst h
        exact le_trans (le_max_right _ _) (le_foldl_max_init_q ys (max a x))
      · exact ih (max a y) x h

lemma foldl_max_mem_q (l : List ℚ) (a : ℚ) : l.foldl max a = a ∨ l.foldl max a ∈ l := by
  induction l generalizing a with
  | nil => exact Or.inl rfl
  | cons x xs ih =>
      rcases ih (max a x) with h | h
      · rcases max_choice a x with hc | hc
        · exact Or.inl (by rw [List.foldl_cons, h, hc])
        · exact Or.inr (by rw [List.foldl_cons, h, hc]; exact List.mem_cons_self x xs)
      · exact Or.inr (List.mem_cons_of_mem x h)

lemma image_min_mem (l : List ℚ) (h : l ≠ []) : image_min l ∈ l := by
  match l with
  | [] => exact absurd rfl h
  | x :: xs =>
      rcases foldl_min_mem_q xs x with h2 | h2
      · rw [image_min, h2]; exact List.mem_cons_self x xs
      · exact List.mem_cons_of_mem x (by rw [image_min]; exact h2)

lemma image_min_le (l : List ℚ) : ∀ x ∈ l, image_min l ≤ x := by
  match l with
  | [] => intro x hx; cases hx
  | y :: ys =>
      intro x hx
      rcases List.mem_cons.mp hx with h | h
      · subst h; exact foldl_min_le_init_q ys x
      · exact foldl_min_le_mem_q ys y x h

lemma image_max_mem (l : List ℚ) (h : l ≠ []) : image_max l ∈ l := by
  match l with
  | [] => exact absurd rfl h
  | x :: xs =>
      rcases foldl_max_mem_q xs x with h2 | h2
      · rw [image_max, h2]; exact List.mem_cons_self x xs
      · exact List.mem_cons_of_mem x (by rw [image_max]; exact h2)

lemma le_image_max (l : List ℚ) : ∀ x ∈ l, x ≤ image_max l := by
  match l with
  | [] => intro x hx; cases hx
  | y :: ys =>
      intro x hx
      rcases List.mem_cons.mp hx with h | h
      · subst h; exact le_foldl_max_init_q ys x
      · exact le_foldl_max_mem_q ys y x h

lemma sum_of_constant (l : List ℚ) (c : ℚ) (h : ∀ x ∈ l, x = c) :
    l.sum = c * l.length := by
  induction l with
  | nil => simp
  | cons x xs ih =>
      have hx : x = c := h x (List.mem_cons_self x xs)
      have hxs : xs.sum = c * xs.length := ih (fun y hy => h y (List.mem_cons_of_mem x hy))
      rw [List.sum_cons, hx, hxs, List.length_cons]
      push_cast
      ring

lemma sum_eq_zero_of_nonneg (l : List ℚ) (h : ∀ x ∈ l, 0 ≤ x) (hs : l.sum = 0) :
    ∀ x ∈ l, x = 0 := by
  induction l with
  | nil => intro x hx; cases hx
  | cons y ys ih =>
      have hy : 0 ≤ y := h y (List.mem_cons_self y ys)
      have hys : ∀ x ∈ ys, 0 ≤ x := fun x hx => h x (List.mem_cons_of_mem y hx)
      have hsum : 0 ≤ ys.sum := List.sum_nonneg hys
      rw [List.sum_cons] at hs
      have hy0 : y = 0 := by linarith
      have hys0 : ys.sum = 0 := by linarith
      intro x hx
      rcases List.mem_cons.mp hx with h2 | h2
      · exact h2 ▸ hy0
      · exact ih hys hys0 x h2

/-- C10: the divisor of brain_age's intensity rescaling — max minus min of
the preprocessed values — is zero exactly when the image is constant, and
the divisor of the segmentation's Gaussian normalization — the standard
deviation of the in-mask values, zero exactly when their variance is
zero — vanishes exactly when the in-mask intensities are constant; neither
division carries a guard, so a constant input reaches a division by
zero. -/
theorem c10_unguarded_divisions (vals masked : List ℚ)
    (h1 : vals ≠ []) (h2 : masked ≠ []) :
    (brain_age_norm_denominator vals = 0 ↔ IsConstant vals) ∧
    (listVariance masked = 0 ↔ IsConstant masked) := by
  constructor
  · rw [brain_age_norm_denominator, sub_eq_zero]
    constructor
    · intro hmm x hx y hy
      have hx1 := image_min_le vals x hx
      have hx2 := le_image_max vals x hx
      have hy1 := image_min_le vals y hy
      have hy2 := le_image_max vals y hy
      rw [hmm] at hx2 hy2
      have : x = image_min vals := le_antisymm hx2 hx1
      have hyv : y = image_min vals := le_antisymm hy2 hy1
      rw [this, hyv]
    · intro hc
      exact hc (image_max vals) (image_max_mem vals h1) (image_min vals)
        (image_min_mem vals h1)
  · have hn : (masked.length : ℚ) ≠ 0 := by
      have : masked.length ≠ 0 := fun h0 => h2 (List.eq_nil_of_length_eq_zero h0)
      exact_mod_cast this
    constructor
    · intro hv x hx y hy
      rw [listVariance, div_eq_zero_iff] at hv
      rcases hv with hv | hv
      · have hnn : ∀ t ∈ masked.map (fun v => (v - listMean masked) ^ 2), 0 ≤ t := by
          intro t ht
          obtain ⟨v, -, rfl⟩ := List.mem_map.mp ht
          exact sq_nonneg _
        have hzero := sum_eq_zero_of_nonneg _ hnn hv
        have hxm : x = listMean masked := by
          have := hzero ((x - listMean masked) ^ 2) (List.mem_map.mpr ⟨x, hx, rfl⟩)
          have hx0 : x - listMean masked = 0 := by
            exact pow_eq_zero_iff (by norm_num) |>.mp this
          linarith
        have hym : y = listMean masked := by
          have := hzero ((y - listMean masked) ^ 2) (List.mem_map.mpr ⟨y, hy, rfl⟩)
          have hy0 : y - listMean masked = 0 := by
            exact pow_eq_zero_iff (by norm_num) |>.mp this
          linarith
        rw [hxm, hym]
      · exact absurd hv hn
    · intro hc
      obtain ⟨c, hcc⟩ : ∃ c, ∀ x ∈ masked, x = c := by
        match masked, h2 with
        | z :: zs, _ => exact ⟨z, fun x hx => hc x hx z (List.mem_cons_self z zs)⟩
      have hmean : listMean masked = c := by
        rw [listMean, sum_of_constant masked c hcc, mul_div_assoc, div_self hn, mul_one]
      have hterms : ∀ t ∈ masked.map (fun v => (v - listMean masked) ^ 2), t = 0 := by
        intro t ht
        obtain ⟨v, hv, rfl⟩ := List.mem_map.mp ht
        rw [hcc v hv, hmean]
        ring
      rw [listVariance, sum_of_constant _ 0 hterms, zero_mul, zero_div]

/-- C10 witness: the constant images [2, 2] and [3, 3, 3]. -/
theorem c10_unguarded_divisions_witness :
    (brain_age_norm_denominator [2, 2] = 0 ↔ IsConstant [2, 2]) ∧
    (listVariance [3, 3, 3] = 0 ↔ IsConstant [3, 3, 3]) :=
  c10_unguarded_divisions [2, 2] [3, 3, 3] (by decide) (by decide)

/-! ## Geometric transform and round trip
    (white_matter_hyperintensity_segmentation.py lines 131-147 and 234-238) -/

/-- A point of physical space. -/
abbrev Vec3 := ℚ × ℚ × ℚ

/-- Spatial header metadata: origin, spacing and direction. -/
structure ImageHeader where
  origin : Vec3
  spacing : Vec3
  direction : Fin 3 → Fin 3 → ℚ

/-- A volumetric image idealized as its header plus an intensity function
on physical space (resampling is exact on this model). -/
structure SpatialImage where
  header : ImageHeader
  value : Vec3 → ℚ

/-- An Euler3D transform created with only `center` and `translation`
(lines 140-141): its rotation stays at the identity, so it maps
x to R(x - c) + c + t = x + t. -/
structure EulerTranslation where
  center : Vec3
  translation : Vec3

def transform_point (T : EulerTranslation) (p : Vec3) : Vec3 :=
  p + T.translation

/-- ants.invert_ants_transform: the inverse of a pure translation negates
the translation. -/
def invert_ants_transform (T : EulerTranslation) : EulerTranslation :=
  ⟨T.center, -T.translation⟩

/-- ants.apply_ants_transform_to_image(T, moving, reference): resample the
moving image onto the reference grid — the output carries the reference's
header and reads the moving image at the transformed point. -/
def apply_ants_transform_to_image (T : EulerTranslation)
    (moving reference : SpatialImage) : SpatialImage :=
  ⟨reference.header, fun p => moving.value (transform_point T p)⟩

/-- Lines 137-141: the forward transform's translation is the difference
of the two centers of mass; its center is the reference's center of
mass. -/
def make_wmh_transform (com_reference com_image : Vec3) : EulerTranslation :=
  ⟨com_reference, com_image - com_reference⟩

/-- Lines 236-237: the returned probability image applies the inverse of
the forward transform with the native flair image as reference. -/
def sysu_output_image (xfrm : EulerTranslation)
    (probability_warped flair : SpatialImage) : SpatialImage :=
  apply_ants_transform_to_image (invert_ants_transform xfrm) probability_warped flair

/-- C4: the returned probability image carries the native flair header
(origin, spacing, direction), the inverse of the forward Euler3D
translation undoes it pointwise, and warping an image forward into the
reference frame and then back with the inverse transform restores its
values at every physical point. -/
theorem c4_transform_round_trip (com_reference com_image : Vec3)
    (probability_warped img reference flair : SpatialImage) :
    (sysu_output_image (make_wmh_transform com_reference com_image)
        probability_warped flair).header = flair.header ∧
    (∀ p, transform_point (invert_ants_transform (make_wmh_transform com_reference com_image))
        (transform_point (make_wmh_transform com_reference com_image) p) = p) ∧
    (∀ p, (sysu_output_image (make_wmh_transform com_reference com_image)
        (apply_ants_transform_to_image (make_wmh_transform com_reference com_image)
          img reference)
        flair).value p = img.value p) := by
  refine ⟨rfl, fun p => ?_, fun p => ?_⟩
  · show p + (com_image - com_reference) + -(com_image - com_reference) = p
    abel
  · show img.value (p + -(com_image - com_reference) + (com_image - com_reference))
      = img.value p
    rw [neg_add_cancel_right]

end ANTsPyNet
